import Mathlib

/-!
Verification development for the lash genome-sketching tool.

The Rust sources are shallowly embedded below. Machine integers are
modelled as `Nat` with explicit masks where the code truncates, `f64`
values are modelled by the type `F` of exact rationals extended with the
IEEE special values (positive and negative infinity and NaN; signed
zeros and rounding are not modelled because no verified statement
depends on them), and fallible code returns `Option` or `Except`.
External library calls (the kmerutils k-mer iterator, the xxhash and
sketch primitives, `f64::ln` and `f64::powf`) enter the definitions as
explicit function parameters, so that every statement quantifies over
their behaviour or pins it by hypothesis.
-/

/-! ## A model of f64 values: exact rationals plus IEEE special values -/

/-- Model of an `f64` value: NaN, a signed infinity (`inf true` is
positive infinity, `inf false` negative infinity), or a finite value
held as an exact rational. Rounding and signed zeros are not modelled. -/
inductive F where
  | nan : F
  | inf : Bool → F
  | fin : ℚ → F
  deriving DecidableEq

/-- IEEE negation on the `F` model. -/
def fneg : F → F
  | .nan => .nan
  | .inf b => .inf (!b)
  | .fin q => .fin (-q)

/-- IEEE addition on the `F` model: NaN propagates, opposite infinities
give NaN, an infinity absorbs finite values. -/
def fadd : F → F → F
  | .nan, _ => .nan
  | _, .nan => .nan
  | .inf b, .inf c => if b = c then .inf b else .nan
  | .inf b, .fin _ => .inf b
  | .fin _, .inf c => .inf c
  | .fin a, .fin b => .fin (a + b)

/-- IEEE subtraction, defined as addition of the negation. -/
def fsub (x y : F) : F := fadd x (fneg y)

/-- IEEE multiplication on the `F` model: NaN propagates, zero times an
infinity is NaN, signs multiply. -/
def fmul : F → F → F
  | .nan, _ => .nan
  | _, .nan => .nan
  | .inf b, .inf c => .inf (b == c)
  | .inf b, .fin q => if q = 0 then .nan else if 0 < q then .inf b else .inf (!b)
  | .fin q, .inf b => if q = 0 then .nan else if 0 < q then .inf b else .inf (!b)
  | .fin a, .fin b => .fin (a * b)

/-- IEEE division on the `F` model: NaN propagates, infinity over
infinity and zero over zero are NaN, a nonzero finite value over zero is
a signed infinity, a finite value over an infinity is zero. -/
def fdiv : F → F → F
  | .nan, _ => .nan
  | _, .nan => .nan
  | .inf _, .inf _ => .nan
  | .inf b, .fin q => if 0 ≤ q then .inf b else .inf (!b)
  | .fin _, .inf _ => .fin 0
  | .fin a, .fin b =>
      if b = 0 then (if a = 0 then .nan else if 0 < a then .inf true else .inf false)
      else .fin (a / b)

/-- IEEE comparison `x <= y` as used by Rust on `f64`: any comparison
with NaN is false. -/
def fle : F → F → Bool
  | .nan, _ => false
  | _, .nan => false
  | .inf false, _ => true
  | .inf true, .inf true => true
  | .inf true, _ => false
  | .fin _, .inf b => b
  | .fin a, .fin b => decide (a ≤ b)

/-- Rust `f64::min`: ignores a NaN argument and returns the other one,
otherwise returns the smaller value. -/
def fmin (x y : F) : F :=
  if x = F.nan then y
  else if y = F.nan then x
  else if fle x y then x else y

/-- `std::f64::EPSILON`, the machine epsilon substituted for
non-positive similarities in the older distance code. -/
def machineEps : ℚ := 1 / 2 ^ 52

/-! ## The bit mask and the k-mer length dispatch (src/utils.rs, src/hypermash.rs) -/

/-- From `mask_bits` in src/utils.rs (same code in src/hypermash.rs):
keep the low `2 * k` bits of a `u64` value; when `2 * k = 64` the value
is returned unchanged (`1u64 << 64` would overflow). The `u64` argument
is modelled as a `Nat`; theorems that need the machine bound carry the
hypothesis `v < 2 ^ 64`. -/
def mask_bits (v : Nat) (k : Nat) : Nat :=
  if 2 * k = 64 then v else v &&& (2 ^ (2 * k) - 1)

/-- The four arms of the k-mer length dispatch shared by the sketching
loops in src/utils.rs (hmh_sketch, hll_sketch, ull_sketch) and
src/hypermash.rs (Hypermash::sketch). -/
inductive KmerEncoder where
  | k32 : KmerEncoder
  | k16b32 : KmerEncoder
  | k64 : KmerEncoder
  | reject : KmerEncoder
  deriving DecidableEq

/-- The k-mer length dispatch of every sketching loop in src/utils.rs
and src/hypermash.rs: `k <= 14` uses `Kmer32bit`, `k = 16` uses
`Kmer16b32bit`, `k <= 32` uses `Kmer64bit`, and only the remaining
lengths reach the panic arm, although the panic message names `k = 15`
as unsupported. -/
def kmer_dispatch (k : Nat) : KmerEncoder :=
  if k ≤ 14 then .k32
  else if k = 16 then .k16b32
  else if k ≤ 32 then .k64
  else .reject

/-! ## The per-k-mer hashing of the HLL and ULL sketching loops (src/utils.rs) -/

/-- Little-endian byte list of width `w` for a machine integer value,
as produced by the Rust `to_le_bytes` methods. -/
def toLeBytes : Nat → Nat → List Nat
  | 0, _ => []
  | w + 1, v => (v % 256) :: toLeBytes w (v / 256)

/-- Value of a little-endian byte list, inverse of `toLeBytes` on
in-range values. -/
def fromLeBytes : List Nat → Nat
  | [] => 0
  | b :: bs => b + 256 * fromLeBytes bs

/-- From the hll_sketch k-mer loops in src/utils.rs (lines 407, 415,
424): the value pushed into the HyperLogLog for one canonical k-mer
value `canon` is `xxh3_64(masked.to_le_bytes())`, where `masked` is the
bit-masked `u64` value on every branch, so the hashed input is its 8
little-endian bytes on all three encoder branches (only hmh_sketch
casts to `u32` on the short branches, and it does not hash at all).
`H` models the external `xxh3_64` function of the xxhash crate, which
is the seedless entry point of XXH3-64 (its digest is the one of the
fixed default seed 0); the source passes no seed into this
computation. Lengths beyond the dispatch (k > 32) hit the panic arm,
modelled as `none`. -/
def hll_pushed (H : List Nat → Nat) (k : Nat) (canon : Nat) : Option Nat :=
  if k ≤ 14 then some (H (toLeBytes 8 (mask_bits canon k)))
  else if k = 16 then some (H (toLeBytes 8 (mask_bits canon k)))
  else if k ≤ 32 then some (H (toLeBytes 8 (mask_bits canon k)))
  else none

/-- From the ull_sketch k-mer loops in src/utils.rs (lines 545, 553,
562): the value passed to `UltraLogLog::add` for one canonical k-mer,
`xxh3_64(masked.to_le_bytes())`, with `masked` a `u64` on every branch
exactly as in the HLL loops. -/
def ull_pushed (H : List Nat → Nat) (k : Nat) (canon : Nat) : Option Nat :=
  if k ≤ 14 then some (H (toLeBytes 8 (mask_bits canon k)))
  else if k = 16 then some (H (toLeBytes 8 (mask_bits canon k)))
  else if k ≤ 32 then some (H (toLeBytes 8 (mask_bits canon k)))
  else none

/-- The per-k-mer hashed value as the specification claims it: the same
little-endian bytes hashed with XXH3-64 seeded by the user-supplied
seed. `Hs` models the seeded XXH3-64 family, first argument the seed.
This definition follows the wording of the spec and is compared against
the source-derived `hll_pushed` above. -/
def hll_pushed_claim (Hs : Nat → List Nat → Nat) (seed k canon : Nat) : Option Nat :=
  if k ≤ 14 then some (Hs seed (toLeBytes 8 (mask_bits canon k)))
  else if k = 16 then some (Hs seed (toLeBytes 8 (mask_bits canon k)))
  else if k ≤ 32 then some (Hs seed (toLeBytes 8 (mask_bits canon k)))
  else none

/-- A concrete interpretation of a seeded 64-bit hash family whose
digest depends on the seed: it returns the seed itself. Used to
separate a seeded hash call from a call at the fixed seed 0. -/
def seedFam : Nat → List Nat → Nat := fun s _ => s

/-! ## The distance computation of the dist subcommand (src/main.rs) -/

/-- From `compute_distance` in src/main.rs: given the fraction, the
k-mer length and the model byte, model 1 (Poisson) returns
`(-frac.ln() / k).min(1.0)`, model 0 (Binomial) returns
`1.0 - frac.powf(1.0 / k)`, and any other byte panics (`none`). `lnF`
and `powF` model the external `f64::ln` and `f64::powf`. -/
def compute_distance (lnF : F → F) (powF : F → F → F) (frac : F)
    (kmer_length : Nat) (equation : Nat) : Option F :=
  if equation = 1 then
    some (fmin (fdiv (fneg (lnF frac)) (F.fin kmer_length)) (F.fin 1))
  else if equation = 0 then
    some (fadd (F.fin 1) (fneg (powF frac (fdiv (F.fin 1) (F.fin kmer_length)))))
  else none

/-- From the row loop of `print_dist` in src/main.rs: the emitted
distance of one (reference, query) row is forced to zero when the
recorded query name is string-equal to the recorded reference name, and
is otherwise `compute_distance` applied to the fraction carried by the
row; the model value (a `u64` in the source) is truncated to a byte at
the call (`equation as u8`). -/
def row_distance (lnF : F → F) (powF : F → F → F) (r_name q_name : String)
    (frac : F) (kmer_length : Nat) (equation : Nat) : Option F :=
  if q_name = r_name then some (F.fin 0)
  else compute_distance lnF powF frac kmer_length (equation % 256)

/-- Modelled from the spec: the similarity-to-fraction map
`f = 2 * s / (1 + s)` applied by the distance functions that feed
`print_dist`; the emit-callback versions of those functions are not
under src/, but the same expression appears verbatim in the older
hmh_distance and hll_distance code in src/utils.rs. -/
def simFraction (s : F) : F :=
  fdiv (fmul (F.fin 2) s) (fadd (F.fin 1) s)

/-- Basename of a recorded file name, following the wording of the
specification for the self-match claim: the component after the last
slash. -/
def splitSlashAux : List Char → List Char → List (List Char)
  | [], acc => [acc.reverse]
  | c :: rest, acc =>
      if c = '/' then acc.reverse :: splitSlashAux rest []
      else splitSlashAux rest (c :: acc)

/-- Basename used to state the self-match claim: the part of the name
after the last slash (the whole name when there is no slash). -/
def nameBase (s : String) : String :=
  String.mk (((splitSlashAux s.data []).getLast?).getD s.data)

/-- A concrete interpretation of `f64::ln` that is IEEE-faithful at the
only point where the statements below evaluate it: `ln 0` is negative
infinity; every other input is sent to NaN. -/
def lnZero : F → F := fun x => if x = F.fin 0 then F.inf false else F.nan

/-- A concrete interpretation of `f64::powf` returning zero, used to
instantiate statements whose truth does not depend on the power. -/
def powZero : F → F → F := fun _ _ => F.fin 0

/-- A concrete interpretation of `f64::powf` returning NaN. -/
def powNan : F → F → F := fun _ _ => F.nan

/-! ## Parameter validation of the dist subcommand (src/main.rs) -/

/-- The fields of a `parameters.json` sidecar that the dist subcommand
reads: the JSON object is a map from strings to strings; the three keys
the validation touches are modelled as record fields, with `precision`
optional because hmh archives do not record it. -/
structure SketchParams where
  k : String
  algorithm : String
  precision : Option String
  deriving DecidableEq

/-- From the parameter checks of the dist subcommand in src/main.rs:
a differing `k` panics, then a differing `algorithm` panics, and when
the algorithm is `ull` or `hll` a differing `precision` panics; indexing
a missing `precision` key in the source also panics, modelled as an
error. -/
def check_params (r q : SketchParams) : Except String Unit :=
  if r.k ≠ q.k then .error "Genomes were not sketched with the same k"
  else if r.algorithm ≠ q.algorithm then
    .error "Algorithms do not match in query and sketch genomes"
  else if r.algorithm = "ull" ∨ r.algorithm = "hll" then
    match r.precision, q.precision with
    | some rp, some qp =>
        if rp ≠ qp then .error "not sketched with same precision btwn genomes"
        else .ok ()
    | _, _ => .error "no precision entry recorded"
  else .ok ()

/-- Phase structure of the dist subcommand in src/main.rs: the
parameter validation runs before the output file is created, before the
header is written and before any similarity is computed, so the rows a
run emits exist only after validation passes. The `rows` argument
stands for the emission that the later phases produce. -/
def dist_emissions (r q : SketchParams) (rows : List (String × String × F)) :
    Except String (List (String × String × F)) :=
  match check_params r q with
  | .error e => .error e
  | .ok _ => .ok rows

/-- The algorithm dispatch of the dist subcommand in src/main.rs: the
`hmh` branch, else the `ull` branch, else the HLL branch; there is no
rejection arm for unknown algorithm strings. -/
inductive AlgBranch where
  | hmh : AlgBranch
  | ull : AlgBranch
  | hll : AlgBranch
  deriving DecidableEq

/-- From the dist subcommand in src/main.rs: which distance code runs
for a recorded algorithm string. -/
def dist_alg_branch (alg : String) : AlgBranch :=
  if alg = "hmh" then .hmh
  else if alg = "ull" then .ull
  else .hll

/-! ## Archive sibling discovery (find_files in src/main.rs) -/

/-- Rust `str::starts_with` on the character data. -/
def strStarts (s pre : String) : Bool := pre.data.isPrefixOf s.data

/-- Rust `str::ends_with` on the character data. -/
def strEnds (s suf : String) : Bool := suf.data.isSuffixOf s.data

/-- Model of `std::path::Path::file_name`: the last path component,
unless the path has no real last component or ends in a parent
reference. -/
def pathFileName (p : String) : Option String :=
  let comps := (splitSlashAux p.data []).filter
    (fun c => decide (c ≠ [] ∧ c ≠ ['.']))
  match comps.getLast? with
  | none => none
  | some c => if c = ['.', '.'] then none else some (String.mk c)

/-- From `find_files` in src/main.rs: the normalized prefix is the file
name of the user prefix (falling back to the whole prefix) with a
leading `./` stripped. -/
def prefixBase (pre : String) : String :=
  let p := (pathFileName pre).getD pre
  if strStarts p "./" then String.mk (p.data.drop 2) else p

/-- The three keys of the sibling-file map built by `find_files`. -/
inductive ArchiveKey where
  | params : ArchiveKey
  | files : ArchiveKey
  | sketches : ArchiveKey
  deriving DecidableEq

/-- From `find_files` in src/main.rs: a matching file name is
classified by suffix, `parameters.json` first, else `files.json`, else
`.bin`; other names are ignored. -/
def classify (file : String) : Option ArchiveKey :=
  if strEnds file "parameters.json" then some .params
  else if strEnds file "files.json" then some .files
  else if strEnds file ".bin" then some .sketches
  else none

/-- The sibling-file map of `find_files`: at most one name per key,
later insertions overwriting earlier ones. -/
structure FoundFiles where
  params : Option String
  files : Option String
  sketches : Option String
  deriving DecidableEq

/-- One insertion step of the `find_files` loop. -/
def insertFile (m : FoundFiles) (f : String) : FoundFiles :=
  match classify f with
  | some .params => ⟨some f, m.files, m.sketches⟩
  | some .files => ⟨m.params, some f, m.sketches⟩
  | some .sketches => ⟨m.params, m.files, some f⟩
  | none => m

/-- Projection of a `FoundFiles` map at a key. -/
def keyGet : ArchiveKey → FoundFiles → Option String
  | .params, m => m.params
  | .files, m => m.files
  | .sketches, m => m.sketches

/-- From `find_files` in src/main.rs: scan the directory listing for
file names starting with the normalized prefix, build the sibling map
by suffix, and panic unless the map holds all three keys; on success
return the (params, files, sketches) names. -/
def find_files (dir : List String) (pre : String) :
    Except String (String × String × String) :=
  match (dir.filter (fun f => strStarts f (prefixBase pre))).foldl
      insertFile (⟨none, none, none⟩ : FoundFiles) with
  | ⟨some p, some f, some s⟩ => .ok (p, f, s)
  | _ => .error "There should be 3 files with this base name"

/-- Whether an `Except` result is a success. -/
def exceptOk {ε α : Type} : Except ε α → Bool
  | .ok _ => true
  | .error _ => false

/-! ## Archive writing order (hll_sketch and hmh_sketch in src/utils.rs) -/

/-- From hll_sketch (and ull_sketch) in src/utils.rs: the sketch vector
is the parallel map of the per-file sketcher over the input list, an
order-preserving collect; `sk` models the per-file sketch construction.
The binary payloads are serialized in exactly this order. -/
def hll_archive_bin {α : Type} (sk : String → α) (files : List String) : List α :=
  files.map sk

/-- From hll_sketch (and ull_sketch) in src/utils.rs: `files.json` is
written from the input list itself, in input order. -/
def hll_archive_names (files : List String) : List String := files

/-- One insertion into the hashbrown `HashMap` that hmh_sketch collects
into: an existing key is overwritten in place, a new key is appended.
The key set and per-key value of this model are faithful to any hash
map; the real iteration order is hash-dependent and unspecified, and no
theorem below relies on the order of this model except through facts that
hold for every enumeration order of the same map (the key set, and the
index-wise pairing of keys with their own values). -/
def hm_insert {α : Type} (m : List (String × α)) (kv : String × α) :
    List (String × α) :=
  if m.any (fun p => p.1 == kv.1) then
    m.map (fun p => if p.1 == kv.1 then kv else p)
  else m ++ [kv]

/-- The hashbrown map collected from a list of key-value pairs. -/
def hm_from {α : Type} (l : List (String × α)) : List (String × α) :=
  l.foldl hm_insert []

/-- From hmh_sketch in src/utils.rs: `files.json` is written from
`sketches.keys()`, the enumeration of the hash map collected from the
per-file results, not from the input list. -/
def hmh_archive_names {α : Type} (sk : String → α) (files : List String) :
    List String :=
  (hm_from (files.map (fun f => (f, sk f)))).map Prod.fst

/-- From hmh_sketch in src/utils.rs: the binary payloads are written by
indexing the hash map at each name of the written name list, in that
order. -/
def hmh_archive_bin {α : Type} (sk : String → α) (files : List String) :
    List α :=
  (hm_from (files.map (fun f => (f, sk f)))).map Prod.snd

/-! ## The pairwise HLL distance loop (hll_distance in src/utils.rs) -/

/-- The two loaded name-to-(sketch, cardinality) maps of hll_distance,
modelled as association lists in load order. -/
structure SketchMaps (α : Type) where
  refMap : List (String × α × F)
  queryMap : List (String × α × F)

/-- Lookup of a name in a loaded map. -/
def mapLookup {α : Type} (m : List (String × α × F)) (name : String) :
    Option (α × F) :=
  match m.find? (fun p => p.1 == name) with
  | some p => some p.2
  | none => none

/-- From the pair closure of hll_distance in src/utils.rs (lines
171-197): read the cardinalities `a` and `b` and the two sketches from
the maps, clone the reference sketch, union the clone with the query
sketch in place, estimate the union cardinality, substitute the machine
epsilon for a non-positive similarity, and derive the distance.
`unionOp` and `lenOp` model the external HyperLogLog union and len,
`lnOp` models `f64::ln`. The state passed through is the pair of loaded
maps; the source mutates only the local clone, so the state is handed
back as loaded. A name missing from a map panics in the source (map
indexing), modelled as `none`. -/
def hll_pair_step {α : Type} (unionOp : α → α → α) (lenOp : α → F)
    (lnOp : F → F) (k : Nat) (st : SketchMaps α) (r q : String) :
    SketchMaps α × Option (String × String × F) :=
  match mapLookup st.refMap r, mapLookup st.queryMap q with
  | some rp, some qp =>
      let a := rp.2
      let b := qp.2
      let refClone := rp.1
      let unioned := unionOp refClone qp.1
      let unionCount := lenOp unioned
      let similarity := fdiv (fsub (fadd a b) unionCount) unionCount
      let s := if fle similarity (F.fin 0) then F.fin machineEps else similarity
      let fraction := fdiv (fmul (F.fin 2) s) (fadd (F.fin 1) s)
      let distance := fdiv (fneg (lnOp fraction)) (F.fin k)
      (st, some (r, q, distance))
  | _, _ => (st, none)

/-- The pair loop of hll_distance threaded sequentially through the
state: each pair computation receives the state left by the previous
one and contributes one row. -/
def hll_pairs_run {α : Type} (unionOp : α → α → α) (lenOp : α → F)
    (lnOp : F → F) (k : Nat) (st : SketchMaps α)
    (pairs : List (String × String)) :
    SketchMaps α × List (Option (String × String × F)) :=
  match pairs with
  | [] => (st, [])
  | p :: rest =>
      let r1 := hll_pair_step unionOp lenOp lnOp k st p.1 p.2
      let r2 := hll_pairs_run unionOp lenOp lnOp k r1.1 rest
      (r2.1, r1.2 :: r2.2)

/-- The constant-zero per-file sketch interpretation, used to
instantiate archive-order statements. -/
def skZero : String → Nat := fun _ => 0

/-! ## Helper lemmas -/

/-- Rust `f64::min` is symmetric (both NaN conventions and the order on
non-NaN values are). -/
theorem fmin_comm (x y : F) : fmin x y = fmin y x := by
  unfold fmin
  by_cases hx : x = F.nan
  · by_cases hy : y = F.nan <;> simp [hx, hy]
  · by_cases hy : y = F.nan
    · simp [hx, hy]
    · simp only [hx, hy, if_false]
      cases x with
      | nan => exact absurd rfl hx
      | inf b =>
          cases y with
          | nan => exact absurd rfl hy
          | inf c => cases b <;> cases c <;> simp [fle]
          | fin a => cases b <;> simp [fle]
      | fin a =>
          cases y with
          | nan => exact absurd rfl hy
          | inf c => cases c <;> simp [fle]
          | fin b =>
              simp only [fle]
              by_cases h : a ≤ b
              · by_cases h2 : b ≤ a
                · have : a = b := le_antisymm h h2
                  subst this; simp
                · simp [h, h2]
              · have h2 : b ≤ a := le_of_not_le h
                simp [h, h2]


/-- One pair computation of hll_distance leaves the loaded maps exactly
as they were: the only sketch written is the local clone. -/
theorem hll_pair_step_fst {α : Type} (unionOp : α → α → α) (lenOp : α → F)
    (lnOp : F → F) (k : Nat) (st : SketchMaps α) (r q : String) :
    (hll_pair_step unionOp lenOp lnOp k st r q).1 = st := by
  unfold hll_pair_step
  cases mapLookup st.refMap r <;> cases mapLookup st.queryMap q <;> rfl

/-- Round trip of the little-endian byte encoding on in-range values. -/
theorem fromLeBytes_toLeBytes (w : Nat) :
    ∀ v : Nat, v < 2 ^ (8 * w) → fromLeBytes (toLeBytes w v) = v := by
  induction w with
  | zero =>
      intro v hv
      have : v = 0 := by simpa using hv
      subst this
      rfl
  | succ w ih =>
      intro v hv
      have hlt : v / 256 < 2 ^ (8 * w) := by
        have h2 : (2 : Nat) ^ (8 * (w + 1)) = 2 ^ (8 * w) * 256 := by
          rw [Nat.mul_succ, pow_add]
          norm_num
        rw [Nat.div_lt_iff_lt_mul (by norm_num : 0 < 256)]
        calc v < 2 ^ (8 * (w + 1)) := hv
          _ = 2 ^ (8 * w) * 256 := h2
      simp only [toLeBytes, fromLeBytes]
      rw [ih (v / 256) hlt]
      exact Nat.mod_add_div v 256

/-- The masked value stays within the 64-bit range. -/
theorem mask_bits_lt (v k : Nat) (hv : v < 2 ^ 64) (hk : k ≤ 32) :
    mask_bits v k < 2 ^ 64 := by
  unfold mask_bits
  split
  · exact hv
  · have h1 : v &&& (2 ^ (2 * k) - 1) ≤ 2 ^ (2 * k) - 1 := Nat.and_le_right
    have h2 : (2 : Nat) ^ (2 * k) ≤ 2 ^ 64 :=
      Nat.pow_le_pow_right (by norm_num) (by omega)
    omega

/-- Inserting one file into the sibling map makes a key present exactly
when it was present before or the file classifies to that key. -/
theorem keyGet_insertFile (k : ArchiveKey) (m : FoundFiles) (f : String) :
    (keyGet k (insertFile m f)).isSome
      = ((keyGet k m).isSome || (classify f == some k)) := by
  cases hc : classify f with
  | none => cases k <;> simp [insertFile, hc, keyGet]
  | some a => cases a <;> cases k <;> simp [insertFile, hc, keyGet]

/-- A key of the sibling map is present after the scan loop exactly when
it was present initially or some scanned file classifies to it. -/
theorem keyGet_foldl (k : ArchiveKey) (l : List String) :
    ∀ m : FoundFiles,
      (keyGet k (l.foldl insertFile m)).isSome
        = ((keyGet k m).isSome || l.any (fun f => classify f == some k)) := by
  induction l with
  | nil => intro m; simp
  | cons f rest ih =>
      intro m
      simp only [List.foldl_cons, List.any_cons]
      rw [ih (insertFile m f), keyGet_insertFile]
      cases (keyGet k m).isSome <;> cases hc : (classify f == some k) <;> simp [hc]

/-- Membership after one hash-map insertion: an element of the new map
is an old element or the inserted pair. -/
theorem hm_insert_mem {α : Type} (m : List (String × α)) (kv p : String × α)
    (hp : p ∈ hm_insert m kv) : p ∈ m ∨ p = kv := by
  unfold hm_insert at hp
  by_cases h : m.any (fun q => q.1 == kv.1)
  · rw [if_pos h] at hp
    rcases List.mem_map.mp hp with ⟨q, hq, hrule⟩
    by_cases h2 : (q.1 == kv.1) = true
    · right
      rw [if_pos h2] at hrule
      exact hrule.symm
    · left
      rw [if_neg h2] at hrule
      rw [← hrule]
      exact hq
  · rw [if_neg h] at hp
    rcases List.mem_append.mp hp with h1 | h1
    · exact Or.inl h1
    · exact Or.inr (List.mem_singleton.mp h1)

/-- An invariant of pairs survives the hash-map collection loop. -/
theorem foldl_hm_invariant {α : Type} (P : String × α → Prop) :
    ∀ (l m : List (String × α)),
      (∀ p ∈ m, P p) → (∀ kv ∈ l, P kv) →
      ∀ p ∈ l.foldl hm_insert m, P p := by
  intro l
  induction l with
  | nil =>
      intro m hm _ p hp
      simpa using hm p (by simpa using hp)
  | cons kv rest ih =>
      intro m hm hl p hp
      simp only [List.foldl_cons] at hp
      refine ih (hm_insert m kv) ?_ ?_ p hp
      · intro q hq
        rcases hm_insert_mem m kv q hq with h | h
        · exact hm q h
        · rw [h]
          exact hl kv (List.mem_cons_self kv rest)
      · intro kv2 h2
        exact hl kv2 (List.mem_cons_of_mem kv h2)

/-- Every pair of the hash map collected by hmh_sketch carries the
sketch of its own key. -/
theorem hm_from_snd {α : Type} (sk : String → α) (files : List String) :
    ∀ p ∈ hm_from (files.map (fun f => (f, sk f))), p.2 = sk p.1 := by
  refine foldl_hm_invariant (fun p => p.2 = sk p.1) _ [] (by simp) ?_
  intro kv hkv
  rcases List.mem_map.mp hkv with ⟨f, _, rfl⟩
  rfl

/-! ## Claim theorems -/

/-- C1: the claim says sketching with nucleotide k = 15 fails with a
fatal UnsupportedParameter error before any k-mer work. Evaluating the
k-mer length dispatch of the sketching loops at the failing input
k = 15 shows the opposite: 15 satisfies the `k <= 32` test, so it is
routed to the Kmer64bit encoder and sketching proceeds; the panic arm
(whose message names k = 15 as unsupported) is reached only for k > 32. -/
theorem C1_dispatch_at_15 :
    kmer_dispatch 15 = KmerEncoder.k64
    ∧ kmer_dispatch 15 ≠ KmerEncoder.reject
    ∧ kmer_dispatch 33 = KmerEncoder.reject := by
  decide

/-- C9: for every value of the 64-bit accumulator and every nucleotide
k-mer length between 1 and 32, the masked k-mer integer produced by
`mask_bits` has all bits at position `2 * k` and above equal to zero:
shifted right by `2 * k` it is zero. -/
theorem C9_mask_invariant (v k : Nat) (hv : v < 2 ^ 64)
    (hk1 : 1 ≤ k) (hk2 : k ≤ 32) :
    mask_bits v k >>> (2 * k) = 0 := by
  unfold mask_bits
  split
  · rename_i h64
    rw [h64, Nat.shiftRight_eq_div_pow]
    exact Nat.div_eq_of_lt hv
  · rw [Nat.shiftRight_eq_div_pow]
    refine Nat.div_eq_of_lt ?_
    have h1 : v &&& (2 ^ (2 * k) - 1) ≤ 2 ^ (2 * k) - 1 := Nat.and_le_right
    have h2 : 0 < (2 : Nat) ^ (2 * k) := Nat.pos_pow_of_pos _ (by norm_num)
    omega

/-- C9 witness: the mask invariant at the concrete input v = 2 ^ 63,
k = 16. -/
theorem C9_witness : mask_bits (2 ^ 63) 16 >>> 32 = 0 :=
  C9_mask_invariant (2 ^ 63) 16 (by norm_num) (by norm_num) (by norm_num)

/-- C2 counterexample: the claim says the k-mer bytes are hashed with
XXH3-64 seeded by the user-supplied seed. Under the interpretation
`seedFam` of a seeded hash family whose digest depends on the seed, the
value the claim prescribes at user seed 7 differs from the value the
source computes, because the source applies the hash only at its fixed
default seed 0 (the seedless `xxh3_64` entry point): the user seed
never reaches the k-mer hashing. -/
theorem C2_counterexample :
    hll_pushed_claim seedFam 7 16 0 ≠ hll_pushed (seedFam 0) 16 0 := by
  decide

/-- C2 amended: the 8 little-endian bytes of the masked canonical
k-mer (a `u64`) are hashed with the seedless `xxh3_64` (XXH3-64 at its
fixed default seed 0); the ULL loop pushes the same value as the HLL
loop; all three encoder branches push the same hash of the same 8
bytes, and those bytes represent the masked value faithfully. -/
theorem C2_seed0_hashing (Hs : Nat → List Nat → Nat) (k canon : Nat)
    (hk : k ≤ 32) (hc : canon < 2 ^ 64) :
    hll_pushed (Hs 0) k canon = hll_pushed_claim Hs 0 k canon
    ∧ ull_pushed (Hs 0) k canon = hll_pushed (Hs 0) k canon
    ∧ hll_pushed (Hs 0) k canon
        = some (Hs 0 (toLeBytes 8 (mask_bits canon k)))
    ∧ fromLeBytes (toLeBytes 8 (mask_bits canon k)) = mask_bits canon k := by
  refine ⟨rfl, rfl, ?_, ?_⟩
  · unfold hll_pushed
    split_ifs <;> rfl
  · refine fromLeBytes_toLeBytes 8 _ ?_
    have := mask_bits_lt canon k hc hk
    simpa using this

/-- C2 witness: the amended hashing fact at the concrete input k = 20,
canonical value 5, hash family `seedFam`. -/
theorem C2_witness :
    hll_pushed (seedFam 0) 20 5 = hll_pushed_claim seedFam 0 20 5 :=
  (C2_seed0_hashing seedFam 20 5 (by norm_num) (by norm_num)).1

/-- C4 counterexample: the claim says a pair whose reference basename
equals the query basename is emitted as distance 0 even when the full
paths differ. The names a/g.fa and b/g.fa share the basename g.fa but
are different strings, and the row loop of print_dist, which compares
the full recorded names, emits the computed Poisson distance (here 1,
for fraction 0) instead of 0. -/
theorem C4_counterexample :
    nameBase "a/g.fa" = nameBase "b/g.fa"
    ∧ ("a/g.fa" : String) ≠ "b/g.fa"
    ∧ row_distance lnZero powNan "a/g.fa" "b/g.fa" (F.fin 0) 3 1
        ≠ some (F.fin 0) := by
  refine ⟨rfl, by decide, by decide⟩

/-- C4 amended: the self-match short-circuit of print_dist compares the
full recorded name strings: for every pair whose recorded query name is
string-equal to the recorded reference name, the emitted distance is
exactly 0, regardless of the carried fraction, the k-mer length, and
the model value. -/
theorem C4_selfmatch_zero (lnF : F → F) (powF : F → F → F)
    (r_name q_name : String) (frac : F) (kmer_length equation : Nat)
    (h : q_name = r_name) :
    row_distance lnF powF r_name q_name frac kmer_length equation
      = some (F.fin 0) := by
  unfold row_distance
  rw [if_pos h]

/-- C4 witness: a self pair is emitted as 0 at a concrete input, even
under an invalid model value. -/
theorem C4_witness :
    row_distance lnZero powNan "g.fa" "g.fa" (F.fin 0) 3 7 = some (F.fin 0) :=
  C4_selfmatch_zero lnZero powNan "g.fa" "g.fa" (F.fin 0) 3 7 rfl

/-- C8 counterexample: the claim says a dist invocation with an unknown
algorithm or a model outside {0, 1} fails fatally before any distance
work and before anything is written. The algorithm dispatch routes the
unknown algorithm xyz to the HLL branch without any failure, and model
256 (not in {0, 1}) is truncated to the byte 0, so the row loop emits a
Binomial distance value instead of failing. -/
theorem C8_counterexample :
    dist_alg_branch "xyz" = AlgBranch.hll
    ∧ row_distance lnZero powZero "r.fa" "q.fa" (F.fin 0) 16 256
        = some (F.fin 1) := by
  refine ⟨by decide, ?_⟩
  have hqr : ("q.fa" : String) ≠ "r.fa" := by decide
  simp [row_distance, compute_distance, hqr, powZero, fneg, fadd, neg_zero,
    add_zero]

/-- C8 amended: the dist subcommand does not validate the algorithm:
every recorded algorithm other than hmh and ull, unknown strings
included, is routed to the HLL branch; the model value is truncated to
its low byte and checked only inside the per-pair compute_distance, so
for a non-self pair a model whose low byte is neither 0 nor 1 panics
there, after the output file and header exist, and a model congruent to
0 or 1 modulo 256 is accepted. -/
theorem C8_no_alg_validation (alg : String) (h1 : alg ≠ "hmh")
    (h2 : alg ≠ "ull") (lnF : F → F) (powF : F → F → F)
    (r_name q_name : String) (h3 : q_name ≠ r_name) (frac : F)
    (kmer_length equation : Nat) (h4 : equation % 256 ≠ 0)
    (h5 : equation % 256 ≠ 1) :
    dist_alg_branch alg = AlgBranch.hll
    ∧ row_distance lnF powF r_name q_name frac kmer_length equation = none := by
  constructor
  · unfold dist_alg_branch
    rw [if_neg h1, if_neg h2]
  · unfold row_distance compute_distance
    rw [if_neg h3, if_neg h5, if_neg h4]

/-- C8 witness: the amended statement at algorithm xyz and model 2 over
a concrete non-self pair. -/
theorem C8_witness :
    dist_alg_branch "xyz" = AlgBranch.hll
    ∧ row_distance lnZero powZero "r.fa" "q.fa" (F.fin 0) 16 2 = none :=
  C8_no_alg_validation "xyz" (by decide) (by decide) lnZero powZero
    "r.fa" "q.fa" (by decide) (F.fin 0) 16 2 (by decide) (by decide)

/-- C3: for a non-self pair under the Poisson model (model byte 1), the
emitted distance is min(1, -ln(f) / k) for the carried fraction
f = 2 s / (1 + s), provided ln behaves as IEEE at zero; in particular
when the computed similarity s is 0 the fraction is 0 and the emitted
distance is exactly the finite value 1, never NaN and never an
infinity. -/
theorem C3_poisson_clamp (lnF : F → F) (powF : F → F → F)
    (r_name q_name : String) (hq : q_name ≠ r_name) (s : ℚ) (k : Nat)
    (hln : lnF (F.fin 0) = F.inf false) :
    row_distance lnF powF r_name q_name (simFraction (F.fin s)) k 1
      = some (fmin (F.fin 1)
          (fdiv (fneg (lnF (simFraction (F.fin s)))) (F.fin k)))
    ∧ (s = 0 →
        row_distance lnF powF r_name q_name (simFraction (F.fin s)) k 1
          = some (F.fin 1)) := by
  have hrow : row_distance lnF powF r_name q_name (simFraction (F.fin s)) k 1
      = some (fmin (fdiv (fneg (lnF (simFraction (F.fin s)))) (F.fin k))
          (F.fin 1)) := by
    unfold row_distance
    rw [if_neg hq]
    norm_num [compute_distance]
  constructor
  · rw [hrow]
    exact congrArg some (fmin_comm _ _)
  · intro hs0
    subst hs0
    have hfrac : simFraction (F.fin 0) = F.fin 0 := by
      norm_num [simFraction, fmul, fadd, fdiv]
    rw [hrow, hfrac, hln]
    have hk0 : (0 : ℚ) ≤ (k : ℚ) := Nat.cast_nonneg k
    simp [fneg, fdiv, fmin, fle, hk0]

/-- C3 witness: the Poisson clamp at similarity 0 over a concrete
non-self pair with k = 16. -/
theorem C3_witness :
    row_distance lnZero powNan "ref.fa" "q.fa" (simFraction (F.fin 0)) 16 1
      = some (F.fin 1) :=
  (C3_poisson_clamp lnZero powNan "ref.fa" "q.fa" (by decide) 0 16
    (by decide)).2 rfl

/-- C5: a dist run succeeds past parameter validation exactly when the
recorded k values match, the recorded algorithms match, and, when the
algorithm is ull or hll, the recorded precisions are present and equal;
otherwise the run ends in a fatal error that carries no rows, so no
similarity is computed and no output row is emitted. -/
theorem C5_param_guard (r q : SketchParams) (rows : List (String × String × F)) :
    (dist_emissions r q rows = Except.ok rows ↔
      (r.k = q.k ∧ r.algorithm = q.algorithm
        ∧ ((r.algorithm = "ull" ∨ r.algorithm = "hll") →
            (r.precision = q.precision ∧ r.precision ≠ none))))
    ∧ (dist_emissions r q rows = Except.ok rows
        ∨ ∃ e, dist_emissions r q rows = Except.error e) := by
  constructor
  · unfold dist_emissions check_params
    by_cases h1 : r.k = q.k
    · by_cases h2 : r.algorithm = q.algorithm
      · by_cases h3 : r.algorithm = "ull" ∨ r.algorithm = "hll"
        · rw [if_neg (not_not_intro h1), if_neg (not_not_intro h2), if_pos h3]
          rw [h2] at h3
          rcases h3 with h3 | h3 <;>
            [skip; skip] <;>
            (cases hrp : r.precision with
              | none =>
                  cases hqp : q.precision with
                  | none => simp [h1, h2, h3, hrp, hqp]
                  | some p2 => simp [h1, h2, h3, hrp, hqp]
              | some p =>
                  cases hqp : q.precision with
                  | none => simp [h1, h2, h3, hrp, hqp]
                  | some p2 =>
                      by_cases h4 : p = p2
                      · simp [h1, h2, h3, hrp, hqp, h4]
                      · simp [h1, h2, h3, hrp, hqp, h4])
        · rw [if_neg (not_not_intro h1), if_neg (not_not_intro h2), if_neg h3]
          rw [h2] at h3
          simp [h1, h2, h3]
      · rw [if_neg (not_not_intro h1), if_pos h2]
        simp [h2]
    · rw [if_pos h1]
      simp [h1]
  · unfold dist_emissions
    cases check_params r q with
    | error e => exact Or.inr ⟨e, rfl⟩
    | ok u => exact Or.inl rfl

/-- C5 witness: validation passes on two concrete matching hll
parameter records and the rows pass through. -/
theorem C5_witness :
    dist_emissions ⟨"16", "hll", some "10"⟩ ⟨"16", "hll", some "10"⟩ []
      = Except.ok [] :=
  (C5_param_guard ⟨"16", "hll", some "10"⟩ ⟨"16", "hll", some "10"⟩ []).1.mpr
    ⟨rfl, rfl, fun _ => ⟨rfl, by simp⟩⟩

/-- C6 counterexample: the claim says prefix discovery succeeds exactly
when the number of matching files is three, with underscore-anchored
suffixes. A directory holding four files that start with the prefix p
(two of them ending in .bin) makes find_files succeed, because the
sibling map only needs one file per suffix category and a later .bin
overwrites an earlier one. -/
theorem C6_counterexample :
    exceptOk (find_files
      ["p_parameters.json", "p_files.json", "p_sketches.bin", "p_extra.bin"]
      "p") = true
    ∧ (["p_parameters.json", "p_files.json", "p_sketches.bin",
        "p_extra.bin"].filter
          (fun f => strStarts f (prefixBase "p"))).length = 4 := by
  refine ⟨by decide, by decide⟩

/-- C6 amended: prefix discovery scans the directory for names starting
with the normalized prefix and succeeds exactly when at least one
matching name falls in each of the three suffix categories
parameters.json, files.json and .bin (checked in that order, not
underscore-anchored); a missing category is fatal, whatever the total
number of matching names. -/
theorem C6_discovery (dir : List String) (pre : String) :
    exceptOk (find_files dir pre) = true ↔
      ((dir.filter (fun f => strStarts f (prefixBase pre))).any
          (fun f => classify f == some ArchiveKey.params) = true
        ∧ (dir.filter (fun f => strStarts f (prefixBase pre))).any
            (fun f => classify f == some ArchiveKey.files) = true
        ∧ (dir.filter (fun f => strStarts f (prefixBase pre))).any
            (fun f => classify f == some ArchiveKey.sketches) = true) := by
  have hp := keyGet_foldl ArchiveKey.params
    (dir.filter (fun f => strStarts f (prefixBase pre))) ⟨none, none, none⟩
  have hf := keyGet_foldl ArchiveKey.files
    (dir.filter (fun f => strStarts f (prefixBase pre))) ⟨none, none, none⟩
  have hs := keyGet_foldl ArchiveKey.sketches
    (dir.filter (fun f => strStarts f (prefixBase pre))) ⟨none, none, none⟩
  simp only [keyGet, Option.isSome_none, Bool.false_or] at hp hf hs
  unfold find_files
  rcases hm : (dir.filter (fun f => strStarts f (prefixBase pre))).foldl
      insertFile (⟨none, none, none⟩ : FoundFiles) with ⟨mp, mf, ms⟩
  rw [hm] at hp hf hs
  simp only at hp hf hs
  cases mp <;> cases mf <;> cases ms <;>
    simp_all [exceptOk]

/-- C6 witness: discovery succeeds on a concrete directory holding
exactly the three siblings of the prefix s. -/
theorem C6_witness :
    exceptOk (find_files
      ["s_parameters.json", "s_files.json", "s_sketches.bin"] "s") = true :=
  (C6_discovery ["s_parameters.json", "s_files.json", "s_sketches.bin"]
    "s").mpr ⟨by decide, by decide, by decide⟩

/-- C7 counterexample: the claim says files.json lists the input paths
in input order for every writer. The hmh writer collects the per-file
sketches into a hash map first, so an input list with a repeated path
produces a files.json with a single entry, not the two entries of the
input list (this holds for every enumeration order of the map, since a
map holds each key once). -/
theorem C7_counterexample :
    hmh_archive_names skZero ["a", "a"] ≠ ["a", "a"] := by
  decide

/-- C7 amended: the hll and ull writers serialize the sketches in input
order with files.json equal to the input list, so the i-th payload is
the sketch of the i-th input path and the i-th name; the hmh writer
lists the distinct input paths in the hash-map enumeration order (not
necessarily the input order), and its i-th payload is the sketch of the
i-th name of its files.json. -/
theorem C7_archive_order {α : Type} (sk : String → α) (files : List String)
    (i j : Nat) (f n : String) (hi : files.get? i = some f)
    (hj : (hmh_archive_names sk files).get? j = some n) :
    hll_archive_names files = files
    ∧ (hll_archive_bin sk files).get? i = some (sk f)
    ∧ (hmh_archive_bin sk files).get? j = some (sk n) := by
  refine ⟨rfl, ?_, ?_⟩
  · unfold hll_archive_bin
    rw [List.get?_map, hi]
    rfl
  · unfold hmh_archive_names at hj
    unfold hmh_archive_bin
    rw [List.get?_map] at hj
    rw [List.get?_map]
    cases hmm : (hm_from (files.map (fun g => (g, sk g)))).get? j with
    | none => rw [hmm] at hj; cases hj
    | some p =>
        rw [hmm] at hj
        have hp1 : p.1 = n := by simpa using hj
        have hmem : p ∈ hm_from (files.map (fun g => (g, sk g))) :=
          List.get?_mem hmm
        have h2 := hm_from_snd sk files p hmem
        simp [h2, hp1]

/-- C7 witness: the order facts at the concrete input list [x, y] with
the constant sketcher. -/
theorem C7_witness :
    hll_archive_names ["x", "y"] = ["x", "y"]
    ∧ (hll_archive_bin skZero ["x", "y"]).get? 1 = some (skZero "y")
    ∧ (hmh_archive_bin skZero ["x", "y"]).get? 0 = some (skZero "x") :=
  C7_archive_order skZero ["x", "y"] 1 0 "y" "x" (by decide) (by decide)

/-- C10: the pairwise HLL distance loop never changes the loaded
name-to-(sketch, cardinality) maps (the union is taken on a local clone
of the reference sketch), and every pair contributes the row it would
contribute alone against the loaded state, so each result is
independent of the order in which pairs are processed. -/
theorem C10_frame_order {α : Type} (unionOp : α → α → α) (lenOp : α → F)
    (lnOp : F → F) (k : Nat) (st : SketchMaps α)
    (pairs : List (String × String)) :
    (hll_pairs_run unionOp lenOp lnOp k st pairs).1 = st
    ∧ (hll_pairs_run unionOp lenOp lnOp k st pairs).2
        = pairs.map
            (fun pr => (hll_pair_step unionOp lenOp lnOp k st pr.1 pr.2).2) := by
  induction pairs with
  | nil => exact ⟨rfl, rfl⟩
  | cons pr rest ih =>
      have hstep := hll_pair_step_fst unionOp lenOp lnOp k st pr.1 pr.2
      constructor
      · show (hll_pairs_run unionOp lenOp lnOp k
            (hll_pair_step unionOp lenOp lnOp k st pr.1 pr.2).1 rest).1 = st
        rw [hstep]
        exact ih.1
      · show (hll_pair_step unionOp lenOp lnOp k st pr.1 pr.2).2
            :: (hll_pairs_run unionOp lenOp lnOp k
                (hll_pair_step unionOp lenOp lnOp k st pr.1 pr.2).1 rest).2
            = (pr :: rest).map
                (fun pr => (hll_pair_step unionOp lenOp lnOp k st pr.1 pr.2).2)
        rw [hstep, List.map_cons, ih.2]
